import Mathlib

set_option maxHeartbeats 1000000

namespace MoltbotNews

/-!
Shallow embedding of the dispatch-feed curation engine of the
moltbot-news frontend (the `App`/`NewsList` pipeline of the main entry
point).  Pure functions of the source are translated one-for-one;
browser-environment values (the Pacific wall clock, the fetched rows) are
taken as parameters.  JavaScript `Array.prototype.sort` (stable since
ES2019) is modelled by a stable insertion sort; a JavaScript `NaN`
arising from `Number()`/`Date` is modelled by `none` in `Option Int`.
-/

/-- Stable insertion of `x` into `l`: `x` goes in front of the first
element `y` with `le x y`; on ties the inserted (originally earlier)
element stays first, which is exactly the ES2019 stability guarantee. -/
def insertLe (le : α → α → Bool) (x : α) : List α → List α
  | [] => [x]
  | y :: ys => if le x y then x :: y :: ys else y :: insertLe le x ys

/-- Stable sort by the boolean relation `le`, modelling
`Array.prototype.sort(cmp)` with `le a b := cmp a b ≤ 0`. -/
def sortBy (le : α → α → Bool) : List α → List α
  | [] => []
  | x :: xs => insertLe le x (sortBy le xs)

theorem insertLe_perm (le : α → α → Bool) (x : α) (l : List α) :
    List.Perm (insertLe le x l) (x :: l) := by
  induction l with
  | nil => simp [insertLe]
  | cons y ys ih =>
    simp only [insertLe]
    by_cases h : le x y = true
    · simp [h]
    · rw [if_neg h]
      exact (ih.cons y).trans (List.Perm.swap x y ys)

theorem sortBy_perm (le : α → α → Bool) (l : List α) :
    List.Perm (sortBy le l) l := by
  induction l with
  | nil => simp [sortBy]
  | cons x xs ih =>
    exact (insertLe_perm le x (sortBy le xs)).trans (ih.cons x)

theorem mem_insertLe {le : α → α → Bool} {x y : α} {l : List α} :
    y ∈ insertLe le x l ↔ y = x ∨ y ∈ l := by
  rw [(insertLe_perm le x l).mem_iff]
  simp

theorem pairwise_insertLe (le : α → α → Bool) (x : α) (l : List α)
    (htrans : ∀ a ∈ x :: l, ∀ b ∈ x :: l, ∀ c ∈ x :: l,
      le a b = true → le b c = true → le a c = true)
    (htot : ∀ b ∈ l, le x b = true ∨ le b x = true)
    (hp : List.Pairwise (fun a b => le a b = true) l) :
    List.Pairwise (fun a b => le a b = true) (insertLe le x l) := by
  induction l with
  | nil => simp [insertLe]
  | cons y ys ih =>
    rcases List.pairwise_cons.mp hp with ⟨hy, hys⟩
    simp only [insertLe]
    by_cases h : le x y = true
    · rw [if_pos h]
      refine List.pairwise_cons.mpr ⟨?_, hp⟩
      intro b hb
      rcases List.mem_cons.mp hb with hb | hb
      · subst hb; exact h
      · exact htrans x (by simp) y (by simp) b (by simp [hb]) h (hy b hb)
    · rw [if_neg h]
      refine List.pairwise_cons.mpr ⟨?_, ?_⟩
      · intro b hb
        rcases mem_insertLe.mp hb with hb | hb
        · subst hb
          rcases htot y (by simp) with h1 | h1
          · exact absurd h1 h
          · exact h1
        · exact hy b hb
      · refine ih ?_ (fun b hb => htot b (by simp [hb])) hys
        intro a ha b hb c hc
        have sub : ∀ d, d ∈ x :: ys → d ∈ x :: y :: ys := by
          intro d hd
          rcases List.mem_cons.mp hd with hd | hd
          · simp [hd]
          · simp [hd]
        exact htrans a (sub a ha) b (sub b hb) c (sub c hc)

theorem pairwise_sortBy (le : α → α → Bool) (l : List α)
    (htrans : ∀ a ∈ l, ∀ b ∈ l, ∀ c ∈ l, le a b = true → le b c = true → le a c = true)
    (htot : ∀ a ∈ l, ∀ b ∈ l, le a b = true ∨ le b a = true) :
    List.Pairwise (fun a b => le a b = true) (sortBy le l) := by
  induction l with
  | nil => simp [sortBy]
  | cons x xs ih =>
    simp only [sortBy]
    have hmem : ∀ d, d ∈ x :: sortBy le xs → d ∈ x :: xs := by
      intro d hd
      rcases List.mem_cons.mp hd with hd | hd
      · simp [hd]
      · simp [((sortBy_perm le xs).mem_iff).mp hd]
    refine pairwise_insertLe le x (sortBy le xs) ?_ ?_ ?_
    · intro a ha b hb c hc
      exact htrans a (hmem a ha) b (hmem b hb) c (hmem c hc)
    · intro b hb
      have hbxs : b ∈ xs := ((sortBy_perm le xs).mem_iff).mp hb
      exact htot x (by simp) b (by simp [hbxs])
    · exact ih (fun a ha b hb c hc =>
          htrans a (by simp [ha]) b (by simp [hb]) c (by simp [hc]))
        (fun a ha b hb => htot a (by simp [ha]) b (by simp [hb]))

/-- First-occurrence deduplication with an accumulator of already-seen
keys; models the key set built by iterating a JavaScript object or `Set`
in insertion order. -/
def dedupFirstGo [BEq α] : List α → List α → List α
  | [], _ => []
  | d :: ds, seen =>
    if seen.contains d then dedupFirstGo ds seen
    else d :: dedupFirstGo ds (d :: seen)

/-- Characterwise lowercasing, modelling `String.prototype.toLowerCase`
on the ASCII data this application handles. -/
def lowerChars (cs : List Char) : List Char := cs.map Char.toLower

/-- Whitespace trimming at both ends, modelling `String.prototype.trim`. -/
def trimChars (cs : List Char) : List Char :=
  ((cs.dropWhile Char.isWhitespace).reverse.dropWhile Char.isWhitespace).reverse

/-- `leadsWith pat s` holds when `pat` occurs at the start of `s`. -/
def leadsWith : List Char → List Char → Bool
  | [], _ => true
  | _ :: _, [] => false
  | p :: ps, c :: cs => p == c && leadsWith ps cs

/-- Substring containment, modelling `String.prototype.includes`. -/
def hasSubstr (pat : List Char) : List Char → Bool
  | [] => leadsWith pat []
  | c :: rest => leadsWith pat (c :: rest) || hasSubstr pat rest

/-- Removal of the first occurrence of `pat`, modelling
`String.prototype.replace(pat, '')` with a string pattern (which replaces
only the first occurrence, anywhere in the string).  An empty pattern
leaves the string unchanged, as `s.replace('', '')` does. -/
def removeFirst (pat : List Char) : List Char → List Char
  | [] => []
  | c :: rest =>
    if leadsWith pat (c :: rest) && !pat.isEmpty then (c :: rest).drop pat.length
    else c :: removeFirst pat rest

/-- Splitting on a separator character, modelling
`String.prototype.split('-')`: the empty string yields `[""]`, and
leading/trailing/adjacent separators yield empty fields. -/
def splitChars (sep : Char) : List Char → List (List Char)
  | [] => [[]]
  | c :: rest =>
    if c == sep then [] :: splitChars sep rest
    else
      match splitChars sep rest with
      | [] => [[c]]
      | w :: ws => (c :: w) :: ws

/-- Value of a non-empty all-digit string. -/
def digitsValGo (acc : Nat) : List Char → Option Nat
  | [] => some acc
  | c :: rest =>
    if c.isDigit then digitsValGo (acc * 10 + (c.toNat - 48)) rest else none

def digitsVal (cs : List Char) : Option Nat :=
  match cs with
  | [] => none
  | _ :: _ => digitsValGo 0 cs

/-- Model of the JavaScript `Number()` conversion on the string shapes the
dispatch pipeline feeds it: after trimming whitespace, the empty string
denotes 0, an optionally signed digit string denotes its integer value,
and everything else denotes NaN (`none`).  Fractional, hexadecimal and
exponent literals do not occur in the `MM-DD-YYYY` data this code parses. -/
def jsNumber (cs : List Char) : Option Int :=
  match trimChars cs with
  | [] => some 0
  | '-' :: rest => (digitsVal rest).map (fun n => -(n : Int))
  | '+' :: rest => (digitsVal rest).map (fun n => (n : Int))
  | t => (digitsVal t).map (fun n => (n : Int))

/-- Days since 1970-01-01 of the civil date `y-m-d` (1-based month in
1..12), by the standard days-from-civil algorithm. -/
def daysFromCivil (y m d : Int) : Int :=
  let y2 := if m ≤ 2 then y - 1 else y
  let era := Int.fdiv y2 400
  let yoe := y2 - era * 400
  let mp := if m > 2 then m - 3 else m + 9
  let doy := Int.fdiv (153 * mp + 2) 5 + d - 1
  let doe := yoe * 365 + Int.fdiv yoe 4 - Int.fdiv yoe 100 + doy
  era * 146097 + doe - 719468

/-- `new Date(y, monthIndex, day).getTime()` for integer arguments,
modelled for an environment whose local timezone is UTC: the ECMAScript
two-digit-year rule (0..99 becomes 1900+y) and month/day rollover are
applied and the result is in milliseconds. -/
def jsDateMs (y mIdx d : Int) : Int :=
  let yAdj := if 0 ≤ y ∧ y ≤ 99 then y + 1900 else y
  let yy := yAdj + Int.fdiv mIdx 12
  let mm := Int.emod mIdx 12
  (daysFromCivil yy (mm + 1) 1 + (d - 1)) * 86400000

/-- `(d || '').split('-').map(Number)`. -/
def mdyParts (s : String) : List (Option Int) :=
  (splitChars '-' s.data).map jsNumber

/-- `parts[0] ?? 0` (note `??` does not replace NaN, only a missing part). -/
def monthPart (s : String) : Option Int := ((mdyParts s)[0]?).getD (some 0)

/-- `parts[1] ?? 0`. -/
def dayPart (s : String) : Option Int := ((mdyParts s)[1]?).getD (some 0)

/-- `parts[2] ?? 0`. -/
def yearPart (s : String) : Option Int := ((mdyParts s)[2]?).getD (some 0)

/-- `parseMDY` from the source: split on `-`, convert the parts with
`Number()`, return `0` when the year is NaN or `0`, otherwise the
timestamp of `new Date(y, m - 1, day)`; `none` models a NaN result
(a NaN month or day makes the Date invalid and `getTime()` NaN). -/
def parseMDY (s : String) : Option Int :=
  match yearPart s with
  | none => some 0
  | some yv =>
    if yv = 0 then some 0
    else
      match monthPart s, dayPart s with
      | some mv, some dv => some (jsDateMs yv (mv - 1) dv)
      | _, _ => none

/-- `getTodayPacific` from the source renders the current instant's
year/month/day in `America/Los_Angeles` with `Intl.DateTimeFormat` and
feeds `MM-DD-YYYY` back through `parseMDY`.  The rendered part strings
(after the source's `?? '0'` fallbacks) are parameters here, because the
wall clock and timezone database are environmental. -/
def getTodayPacific (yS mS dS : String) : Option Int :=
  parseMDY (mS ++ "-" ++ dS ++ "-" ++ yS)

/-- One `{source, url}` duplicate-coverage link. -/
structure MoreCoverageLink where
  source : String
  url : String
  deriving DecidableEq

inductive SourceType
  | priority
  | standard
  | delist
  deriving DecidableEq

/-- A fetched news row after the fetch-time field mapping.  `date` is the
`MM-DD-YYYY` dispatch date, with the empty string standing for an absent
(null/undefined, hence falsy) value; `inserted_at` is modelled as the
already-parsed millisecond timestamp its ISO string denotes (`none` for
an absent value). -/
structure NewsItem where
  title : String
  summary : String
  url : String
  source : String
  date : String
  inserted_at : Option Int
  source_type : Option SourceType
  moreCoverage : Option (List MoreCoverageLink)
  tags : Option (List String)
  deriving DecidableEq

/-- A `spotlight_overrides` row. -/
structure SpotlightOverride where
  dispatch_date : String
  slot : Nat
  url : String
  title : Option String
  source : Option String
  summary : Option String
  tags : Option (List String)
  deriving DecidableEq

/-- A whitelist entry; the fields are the source's
`String(w["Source Name"] || "")` and `String(w["Website URL"] || "")`
coercions, so an absent field is the empty string. -/
structure WhitelistEntry where
  sourceName : String
  websiteUrl : String
  deriving DecidableEq

/-- The `whitelistUrl` normalisation inside `checkIfVerified`:
lowercase, then drop the first occurrence of `https://`, `http://` and
`www.` in that order. -/
def stripWebsiteUrl (u : String) : List Char :=
  removeFirst "www.".data
    (removeFirst "http://".data (removeFirst "https://".data (lowerChars u.data)))

/-- `checkIfVerified` from the source: some whitelist entry matches the
item, either by trimmed lowercase source-name equality or by the item's
lowercased url containing the entry's non-empty normalised website url. -/
def checkIfVerified (whitelist : List WhitelistEntry) (item : NewsItem) : Bool :=
  whitelist.any fun w =>
    let whitelistName := trimChars (lowerChars w.sourceName.data)
    let articleSource := trimChars (lowerChars item.source.data)
    if whitelistName == articleSource then true
    else
      let wUrl := stripWebsiteUrl w.websiteUrl
      !wUrl.isEmpty && hasSubstr wUrl (lowerChars item.url.data)

/-- `scoreArticle` from the source. -/
def scoreArticle (wl : List WhitelistEntry) (item : NewsItem) : Int :=
  ((item.moreCoverage.getD []).length : Int) * 3
    + (if item.source_type = some SourceType.priority then 2 else 0)
    + (if checkIfVerified wl item then 1 else 0)

/-- The `<=` comparison of two possibly-NaN numbers: any comparison with
NaN is false in JavaScript. -/
def jsLe? : Option Int → Option Int → Bool
  | some x, some t => decide (x ≤ t)
  | _, _ => false

/-- The subtraction `x - y` used inside sort comparators; a NaN result is
treated as `0` by `Array.prototype.sort` (SortCompare coerces NaN to +0). -/
def optCmp : Option Int → Option Int → Int
  | some x, some y => x - y
  | _, _ => 0

/-- The future-date filter predicate of `sortedNews`:
`!item.date || parseMDY(item.date) <= todayPT`. -/
def futureKeep (todayPT : Option Int) (item : NewsItem) : Bool :=
  item.date == "" || jsLe? (parseMDY item.date) todayPT

/-- The `sortedNews` comparator `(a, b) => parseMDY(b.date) - parseMDY(a.date)`,
as the stable-sort relation "a may stay before b". -/
def dateLe (a b : NewsItem) : Bool :=
  decide (optCmp (parseMDY b.date) (parseMDY a.date) ≤ 0)

/-- `sortedNews` from `App`: filter out items dated after today Pacific,
then sort descending by dispatch date. -/
def sortedNews (news : List NewsItem) (todayPT : Option Int) : List NewsItem :=
  sortBy dateLe (news.filter (futureKeep todayPT))

def newsPerPage : Nat := 20

/-- `currentNewsItems` from `App`:
`sortedNews.slice((currentPage - 1) * newsPerPage, currentPage * newsPerPage)`
for a page number `p ≥ 1`. -/
def currentNewsItems (news : List NewsItem) (todayPT : Option Int) (p : Nat) : List NewsItem :=
  ((sortedNews news todayPT).drop ((p - 1) * newsPerPage)).take newsPerPage

/-- The day key `item.date || 'unknown'`. -/
def dayKey (item : NewsItem) : String :=
  if item.date == "" then "unknown" else item.date

/-- The loop body of the `spotlightDays` memo in `App`: walk `sortedNews`
with its index, record each day the first time it is seen, and keep it
when that first index falls inside the current page's range. -/
def spotlightDaysGo : List NewsItem → Nat → List String → Nat → Nat → List String
  | [], _, _, _, _ => []
  | it :: rest, i, seen, ps, pe =>
    let day := dayKey it
    if seen.contains day then spotlightDaysGo rest (i + 1) seen ps pe
    else
      let tail := spotlightDaysGo rest (i + 1) (day :: seen) ps pe
      if ps ≤ i ∧ i < pe then day :: tail else tail

/-- `spotlightDays` from `App`: the days whose first article of
`sortedNews` lands on page `p`. -/
def spotlightDays (news : List NewsItem) (todayPT : Option Int) (p : Nat) : List String :=
  spotlightDaysGo (sortedNews news todayPT) 0 [] ((p - 1) * newsPerPage) (p * newsPerPage)

/-- `grouped[day] ?? []` inside `NewsList`: the current page's items of
one day, in page order (grouping by key preserves relative order). -/
def dayItemsOf (news : List NewsItem) (todayPT : Option Int) (p : Nat) (day : String) :
    List NewsItem :=
  (currentNewsItems news todayPT p).filter (fun it => dayKey it == day)

/-- `Object.keys(grouped)`: the page's day keys in first-occurrence
order (the keys contain `-` or are `"unknown"`, so JavaScript object key
iteration is insertion order). -/
def dayKeysOf (items : List NewsItem) : List String :=
  dedupFirstGo (items.map dayKey) []

/-- The `sortedDays` comparator `(a, b) => parseMDY(b) - parseMDY(a)`. -/
def dayDateLe (a b : String) : Bool :=
  decide (optCmp (parseMDY b) (parseMDY a) ≤ 0)

/-- `sortedDays` inside `NewsList`. -/
def sortedDaysOf (news : List NewsItem) (todayPT : Option Int) (p : Nat) : List String :=
  sortBy dayDateLe (dayKeysOf (currentNewsItems news todayPT p))

/-- The ordinal weight `{ priority: 1, standard: 2, delist: 3 }` applied
to `a.source_type || 'standard'` (with the `?? 2` fallback). -/
def sourceWeight : Option SourceType → Int
  | some SourceType.priority => 1
  | some SourceType.standard => 2
  | some SourceType.delist => 3
  | none => 2

/-- `new Date(b.inserted_at || 0).getTime()`: an absent `inserted_at` is
the numeric `0`, i.e. the epoch. -/
def insertedAtMs (item : NewsItem) : Int := item.inserted_at.getD 0

/-- The `fullDayArticles` comparator: verified first, then source-type
weight ascending, then `inserted_at` descending. -/
def riverCmp (wl : List WhitelistEntry) (a b : NewsItem) : Int :=
  let aV := checkIfVerified wl a
  let bV := checkIfVerified wl b
  if aV != bV then (if aV then -1 else 1)
  else
    let wDiff := sourceWeight a.source_type - sourceWeight b.source_type
    if wDiff != 0 then wDiff
    else insertedAtMs b - insertedAtMs a

def riverLe (wl : List WhitelistEntry) (a b : NewsItem) : Bool :=
  decide (riverCmp wl a b ≤ 0)

/-- `fullDayArticles[day]` inside `NewsList`: all of `allNews` for the
day (grouping preserves order), sorted by the canonical comparator. -/
def fullDayArticles (wl : List WhitelistEntry) (allNews : List NewsItem) (day : String) :
    List NewsItem :=
  sortBy (riverLe wl) (allNews.filter (fun it => dayKey it == day))

/-- `overrideLookup[day][slot]`: object assignment means the last row
with a given (day, slot) pair wins. -/
def overrideFor (ovs : List SpotlightOverride) (day : String) (slot : Nat) :
    Option SpotlightOverride :=
  (ovs.filter (fun o => o.dispatch_date == day && o.slot == slot)).getLast?

/-- `overriddenUrls` for a day: the url of each slot's effective override
(`Object.values(dayOverrides)`); only set membership of the result is
used downstream, so the slot iteration order is immaterial. -/
def overriddenUrls (ovs : List SpotlightOverride) (day : String) : List String :=
  (dedupFirstGo ((ovs.filter (fun o => o.dispatch_date == day)).map (fun o => o.slot)) []).filterMap
    (fun s => (overrideFor ovs day s).map (fun o => o.url))

/-- The `algoQueue` comparator `(a, b) => scoreArticle(b) - scoreArticle(a)`. -/
def scoreLe (wl : List WhitelistEntry) (a b : NewsItem) : Bool :=
  decide (scoreArticle wl b - scoreArticle wl a ≤ 0)

/-- `algoQueue` inside `NewsList`: the day's CURRENT-PAGE items
(`dayItems`), score-sorted, minus any url pinned by one of the day's
overrides. -/
def algoQueueOf (wl : List WhitelistEntry) (news : List NewsItem) (ovs : List SpotlightOverride)
    (todayPT : Option Int) (p : Nat) (day : String) : List NewsItem :=
  (sortBy (scoreLe wl) (dayItemsOf news todayPT p day)).filter
    (fun it => !(overriddenUrls ovs day).contains it.url)

/-- The NewsItem-shaped object built from an override row
(`title: o.title || ''` and so on; `x || ''` and `Option.getD ""`
coincide because `"" || ''` is `''`). -/
def overrideItem (o : SpotlightOverride) (day : String) : NewsItem where
  url := o.url
  title := o.title.getD ""
  source := o.source.getD ""
  summary := o.summary.getD ""
  tags := some (o.tags.getD [])
  date := day
  moreCoverage := some []
  inserted_at := none
  source_type := none

/-- The `[1, 2, 3, 4].map(slot => ...)` loop with its mutable `queueIdx`,
made explicit: an override slot takes the override, any other slot pops
the next queue element (or is empty when the queue is exhausted). -/
def slotFill (ov : Nat → Option SpotlightOverride) (day : String) :
    List Nat → List NewsItem → List (Option NewsItem)
  | [], _ => []
  | s :: rest, q =>
    match ov s with
    | some o => some (overrideItem o day) :: slotFill ov day rest q
    | none =>
      match q with
      | [] => none :: slotFill ov day rest []
      | x :: q' => some x :: slotFill ov day rest q'

/-- `spotlightSlots` inside `NewsList`. -/
def spotlightSlotsOf (wl : List WhitelistEntry) (news : List NewsItem)
    (ovs : List SpotlightOverride) (todayPT : Option Int) (p : Nat) (day : String) :
    List (Option NewsItem) :=
  slotFill (overrideFor ovs day) day [1, 2, 3, 4] (algoQueueOf wl news ovs todayPT p day)

/-- `leadSlot = spotlightSlots[0]`. -/
def leadSlotOf (wl : List WhitelistEntry) (news : List NewsItem) (ovs : List SpotlightOverride)
    (todayPT : Option Int) (p : Nat) (day : String) : Option NewsItem :=
  ((spotlightSlotsOf wl news ovs todayPT p day).head?).join

/-- `alsoTodaySlots = spotlightSlots.slice(1).filter(Boolean)`. -/
def alsoTodayOf (wl : List WhitelistEntry) (news : List NewsItem) (ovs : List SpotlightOverride)
    (todayPT : Option Int) (p : Nat) (day : String) : List NewsItem :=
  ((spotlightSlotsOf wl news ovs todayPT p day).drop 1).filterMap id

/-- `currentPageUrls` for a day. -/
def currentPageUrlsOf (news : List NewsItem) (todayPT : Option Int) (p : Nat) (day : String) :
    List String :=
  (dayItemsOf news todayPT p day).map (fun it => it.url)

/-- `allArticles` inside `NewsList`: the day's full canonical ranking
restricted to the urls present on the current page. -/
def allArticlesOf (wl : List WhitelistEntry) (news : List NewsItem) (todayPT : Option Int)
    (p : Nat) (day : String) : List NewsItem :=
  (fullDayArticles wl (sortedNews news todayPT) day).filter
    (fun a => (currentPageUrlsOf news todayPT p day).contains a.url)

/-- The rendered spotlight card of one day on one page. -/
structure SpotlightView where
  lead : NewsItem
  alsoToday : List NewsItem
  deriving DecidableEq

/-- The spotlight render guard
`{leadSlot && spotlightDays.has(day) && (...)}`: the whole card —
lead AND the also-today sidebar — appears only when the lead slot is
non-empty and the day's first article falls on this page. -/
def renderedSpotlight (wl : List WhitelistEntry) (news : List NewsItem)
    (ovs : List SpotlightOverride) (todayPT : Option Int) (p : Nat) (day : String) :
    Option SpotlightView :=
  match leadSlotOf wl news ovs todayPT p day with
  | none => none
  | some l =>
    if (spotlightDays news todayPT p).contains day then
      some { lead := l, alsoToday := alsoTodayOf wl news ovs todayPT p day }
    else none

/-- The river a page displays: for each of the page's days in rendered
order, the day's `allArticles` list. -/
def pageRiver (wl : List WhitelistEntry) (news : List NewsItem) (todayPT : Option Int)
    (p : Nat) : List NewsItem :=
  (sortedDaysOf news todayPT p).flatMap (fun day => allArticlesOf wl news todayPT p day)

/-- `totalNewsPages = Math.ceil(sortedNews.length / newsPerPage)`. -/
def totalNewsPages (news : List NewsItem) (todayPT : Option Int) : Nat :=
  ((sortedNews news todayPT).length + (newsPerPage - 1)) / newsPerPage

/-- The concatenation of every page's river, in page order. -/
def allPagesRiver (wl : List WhitelistEntry) (news : List NewsItem) (todayPT : Option Int) :
    List NewsItem :=
  (List.range (totalNewsPages news todayPT)).flatMap
    (fun i => pageRiver wl news todayPT (i + 1))

/-! Theorems about the embedded pipeline, one per claim of the
specification review, with shared helper lemmas. -/

theorem slotFill_override {o : SpotlightOverride} (ov : Nat → Option SpotlightOverride)
    (day : String) (sl : List Nat) :
    ∀ (q : List NewsItem) (n s : Nat), sl[n]? = some s → ov s = some o →
      (slotFill ov day sl q)[n]? = some (some (overrideItem o day)) := by
  induction sl with
  | nil => intro q n s hn _; simp at hn
  | cons s0 rest ih =>
    intro q n s hn ho
    cases n with
    | zero =>
      simp only [List.getElem?_cons_zero, Option.some.injEq] at hn
      subst hn
      simp [slotFill, ho]
    | succ n =>
      simp only [List.getElem?_cons_succ] at hn
      simp only [slotFill]
      cases hov : ov s0 with
      | some o0 => simpa using ih q n s hn ho
      | none =>
        cases q with
        | nil => simpa using ih [] n s hn ho
        | cons x q' => simpa using ih q' n s hn ho

/-- Claim C1: for any dispatch day and any slot 1-4 that has an effective
SpotlightOverride, the produced spotlight slot is materialised from the
override's own stored fields verbatim (absent optional fields become
empty), for every news snapshot and page — independently of any NewsItem
scores and of whether a NewsItem with the override's url was fetched. -/
theorem claim_c1 (wl : List WhitelistEntry) (news : List NewsItem)
    (ovs : List SpotlightOverride) (todayPT : Option Int) (p : Nat) (day : String)
    (slot : Nat) (o : SpotlightOverride)
    (h1 : 1 ≤ slot) (h2 : slot ≤ 4)
    (h3 : overrideFor ovs day slot = some o) :
    (spotlightSlotsOf wl news ovs todayPT p day)[slot - 1]? =
      some (some (overrideItem o day))
    ∧ (overrideItem o day).url = o.url
    ∧ (overrideItem o day).title = o.title.getD ""
    ∧ (overrideItem o day).source = o.source.getD ""
    ∧ (overrideItem o day).summary = o.summary.getD ""
    ∧ (overrideItem o day).tags = some (o.tags.getD [])
    ∧ (overrideItem o day).moreCoverage = some [] := by
  refine ⟨?_, rfl, rfl, rfl, rfl, rfl, rfl⟩
  have hidx : ([1, 2, 3, 4] : List Nat)[slot - 1]? = some slot := by
    interval_cases slot <;> rfl
  exact slotFill_override (overrideFor ovs day) day [1, 2, 3, 4] _ _ _ hidx h3

def c1item : NewsItem where
  title := "high score"
  summary := ""
  url := "https://a"
  source := "x"
  date := "01-01-2024"
  inserted_at := some 5
  source_type := some SourceType.priority
  moreCoverage := some [{ source := "s1", url := "https://c1" }, { source := "s2", url := "https://c2" }]
  tags := some []

def c1ov : SpotlightOverride where
  dispatch_date := "01-01-2024"
  slot := 2
  url := "https://pinned"
  title := some "Pinned"
  source := none
  summary := none
  tags := some ["t"]

theorem claim_c1_witness :
    overrideFor [c1ov] "01-01-2024" 2 = some c1ov
    ∧ ((spotlightSlotsOf [] [c1item] [c1ov] (parseMDY "01-02-2024") 1 "01-01-2024")[2 - 1]? =
        some (some (overrideItem c1ov "01-01-2024"))
      ∧ (overrideItem c1ov "01-01-2024").url = c1ov.url
      ∧ (overrideItem c1ov "01-01-2024").title = c1ov.title.getD ""
      ∧ (overrideItem c1ov "01-01-2024").source = c1ov.source.getD ""
      ∧ (overrideItem c1ov "01-01-2024").summary = c1ov.summary.getD ""
      ∧ (overrideItem c1ov "01-01-2024").tags = some (c1ov.tags.getD [])
      ∧ (overrideItem c1ov "01-01-2024").moreCoverage = some []) :=
  ⟨by decide,
   claim_c1 [] [c1item] [c1ov] (parseMDY "01-02-2024") 1 "01-01-2024" 2 c1ov
     (by decide) (by decide) (by decide)⟩

/-- Claim C10: when every whitelist entry's Website URL field is empty,
the url-containment branch of `checkIfVerified` can never fire (the empty
normalised url is explicitly guarded), so verification degenerates to
exact case-insensitive trimmed equality with the item's source name; in
particular an empty Website URL never verifies every article. -/
theorem claim_c10 (wl : List WhitelistEntry) (item : NewsItem)
    (h : ∀ w ∈ wl, w.websiteUrl = "") :
    checkIfVerified wl item =
      wl.any (fun w =>
        trimChars (lowerChars w.sourceName.data) == trimChars (lowerChars item.source.data)) := by
  induction wl with
  | nil => rfl
  | cons w ws ih =>
    have hw : w.websiteUrl = "" := h w (List.mem_cons_self _ _)
    have hrest := ih (fun x hx => h x (List.mem_cons_of_mem _ hx))
    simp only [checkIfVerified] at hrest ⊢
    rw [List.any_cons, List.any_cons, hrest, hw]
    by_cases hc : (trimChars (lowerChars w.sourceName.data) ==
        trimChars (lowerChars item.source.data)) = true
    · simp [hc]
    · have hempty : stripWebsiteUrl "" = [] := rfl
      simp [hc, hempty]

def c10entry : WhitelistEntry where
  sourceName := " The Verge "
  websiteUrl := ""

def c10item : NewsItem where
  title := ""
  summary := ""
  url := "https://www.theverge.com/story"
  source := "the verge"
  date := "01-01-2024"
  inserted_at := none
  source_type := none
  moreCoverage := some []
  tags := some []

theorem claim_c10_witness :
    (∀ w ∈ [c10entry], w.websiteUrl = "")
    ∧ checkIfVerified [c10entry] c10item =
        [c10entry].any (fun w =>
          trimChars (lowerChars w.sourceName.data) ==
            trimChars (lowerChars c10item.source.data)) :=
  ⟨by decide, claim_c10 [c10entry] c10item (by decide)⟩

theorem mem_sortedNews {news : List NewsItem} {todayPT : Option Int} {item : NewsItem} :
    item ∈ sortedNews news todayPT ↔ item ∈ news ∧ futureKeep todayPT item = true := by
  unfold sortedNews
  rw [(sortBy_perm _ _).mem_iff, List.mem_filter]

def c5item : NewsItem where
  title := ""
  summary := ""
  url := "https://bad-date"
  source := "x"
  date := "aa-15-2024"
  inserted_at := none
  source_type := none
  moreCoverage := some []
  tags := some []

/-- Counterexample to claim C5 as stated: the date string `"00-15-2024"`
has a month that is not a positive integer, yet the parser does not
return the sentinel 0 (the zero month rolls over to December 2023); the
date string `"aa-15-2024"` has a month that fails to parse, yet the
parser returns NaN rather than 0, and an item carrying it IS excluded by
the future-date filter. -/
theorem claim_c5_cex :
    parseMDY "00-15-2024" ≠ some 0
    ∧ parseMDY "aa-15-2024" ≠ some 0
    ∧ sortedNews [c5item] (parseMDY "01-02-2024") = [] := by
  refine ⟨by decide, by decide, by decide⟩

/-- Claim C5 amended: the parser returns the sentinel 0 exactly on a year
that fails to parse or equals 0; a month or day that fails to parse
(with a valid non-zero year) yields NaN, and such an item is excluded by
the future-date filter since no comparison with NaN holds.  Items whose
date parses to the sentinel 0 are never excluded by the filter (today's
ordinal being ≥ 0), and when every item's date parses to a number the
displayed order is descending by ordinal, so sentinel-0 items come after
every item with a positive ordinal. -/
theorem claim_c5_amended :
    (∀ s : String, yearPart s = none ∨ yearPart s = some 0 → parseMDY s = some 0)
    ∧ (∀ s : String, ∀ yv : Int, yearPart s = some yv → yv ≠ 0 →
        monthPart s = none ∨ dayPart s = none → parseMDY s = none)
    ∧ (∀ (news : List NewsItem) (item : NewsItem) (t : Int), item ∈ news →
        parseMDY item.date = some 0 → 0 ≤ t →
        item ∈ sortedNews news (some t))
    ∧ (∀ (news : List NewsItem) (todayPT : Option Int),
        (∀ it ∈ news, (parseMDY it.date).isSome = true) →
        List.Pairwise (fun a b => (parseMDY b.date).getD 0 ≤ (parseMDY a.date).getD 0)
          (sortedNews news todayPT)) := by
  refine ⟨?_, ?_, ?_, ?_⟩
  · intro s h
    unfold parseMDY
    rcases h with h | h <;> rw [h]
    simp
  · intro s yv hy hyv hmd
    rcases hmd with h | h
    · simp [parseMDY, hy, hyv, h]
    · cases hm : monthPart s <;> simp [parseMDY, hy, hyv, h, hm]
  · intro news item t hmem hp ht
    refine mem_sortedNews.mpr ⟨hmem, ?_⟩
    unfold futureKeep
    rw [hp]
    simp [jsLe?, ht]
  · intro news todayPT hall
    have hsome : ∀ it ∈ (news.filter (futureKeep todayPT)),
        (parseMDY it.date).isSome = true :=
      fun it hit => hall it (List.mem_filter.mp hit).1
    unfold sortedNews
    have hpw := pairwise_sortBy dateLe (news.filter (futureKeep todayPT))
      ?_ ?_
    · refine List.Pairwise.imp_of_mem ?_ hpw
      intro a b ha hb hab
      have ha' := hsome a (((sortBy_perm _ _).mem_iff).mp ha)
      have hb' := hsome b (((sortBy_perm _ _).mem_iff).mp hb)
      rcases Option.isSome_iff_exists.mp ha' with ⟨pa, hpa⟩
      rcases Option.isSome_iff_exists.mp hb' with ⟨pb, hpb⟩
      rw [hpa, hpb]
      unfold dateLe at hab
      rw [hpa, hpb] at hab
      simp only [optCmp, decide_eq_true_eq] at hab
      simpa using hab
    · intro a ha b hb c hc hab hbc
      rcases Option.isSome_iff_exists.mp (hsome a ha) with ⟨pa, hpa⟩
      rcases Option.isSome_iff_exists.mp (hsome b hb) with ⟨pb, hpb⟩
      rcases Option.isSome_iff_exists.mp (hsome c hc) with ⟨pc, hpc⟩
      unfold dateLe at hab hbc ⊢
      rw [hpa, hpb] at hab
      rw [hpb, hpc] at hbc
      rw [hpa, hpc]
      simp only [optCmp, decide_eq_true_eq] at hab hbc ⊢
      omega
    · intro a ha b hb
      rcases Option.isSome_iff_exists.mp (hsome a ha) with ⟨pa, hpa⟩
      rcases Option.isSome_iff_exists.mp (hsome b hb) with ⟨pb, hpb⟩
      unfold dateLe
      rw [hpa, hpb]
      simp only [optCmp, decide_eq_true_eq]
      omega

theorem claim_c5_amended_witness :
    (yearPart "01-01-0000" = some 0 ∧ parseMDY "01-01-0000" = some 0)
    ∧ (yearPart "aa-15-2024" = some 2024 ∧ monthPart "aa-15-2024" = none
        ∧ parseMDY "aa-15-2024" = none)
    ∧ (c1item ∈ [c1item]
        ∧ parseMDY "01-01-0000" = some 0
        ∧ { c1item with date := "01-01-0000" } ∈
            sortedNews [{ c1item with date := "01-01-0000" }] (some 0)) :=
  ⟨⟨by decide, claim_c5_amended.1 "01-01-0000" (Or.inr (by decide))⟩,
   ⟨by decide, by decide,
    claim_c5_amended.2.1 "aa-15-2024" 2024 (by decide) (by decide) (Or.inl (by decide))⟩,
   ⟨by decide, by decide,
    claim_c5_amended.2.2.1 [{ c1item with date := "01-01-0000" }]
      { c1item with date := "01-01-0000" } 0 (by decide) (by decide) (by decide)⟩⟩

/-- Claim C4: an item whose dispatch-date ordinal is strictly greater
than today's ordinal (today being non-negative, as any rendered current
date parsed by the same parser is) appears in no page view: it is
dropped from `sortedNews`, hence from every page slice, from every day's
full ranking and from every rendered river. -/
theorem claim_c4 (wl : List WhitelistEntry) (news : List NewsItem) (item : NewsItem)
    (v t : Int)
    (hv : parseMDY item.date = some v)
    (ht0 : 0 ≤ t)
    (hvt : t < v) :
    item ∉ sortedNews news (some t)
    ∧ (∀ p, item ∉ currentNewsItems news (some t) p)
    ∧ (∀ d, item ∉ fullDayArticles wl (sortedNews news (some t)) d)
    ∧ (∀ p d, item ∉ allArticlesOf wl news (some t) p d) := by
  have hdate : (item.date == "") = false := by
    by_contra h
    have hd : item.date = "" := by
      cases hx : (item.date == "") with
      | false => exact absurd hx h
      | true => exact eq_of_beq hx
    have h0 : parseMDY "" = some 0 := by decide
    rw [hd, h0] at hv
    have : v = 0 := by injection hv with h'; omega
    omega
  have hkeep : futureKeep (some t) item = false := by
    unfold futureKeep
    rw [hdate, hv]
    simp [jsLe?]
    omega
  have hmain : item ∉ sortedNews news (some t) := by
    intro hmem
    have := (mem_sortedNews.mp hmem).2
    rw [hkeep] at this
    exact Bool.false_ne_true this
  refine ⟨hmain, ?_, ?_, ?_⟩
  · intro p hmem
    exact hmain (List.drop_subset _ _ (List.take_subset _ _ hmem))
  · intro d hmem
    unfold fullDayArticles at hmem
    have := ((sortBy_perm _ _).mem_iff).mp hmem
    exact hmain (List.mem_filter.mp this).1
  · intro p d hmem
    unfold allArticlesOf at hmem
    have hfd := (List.mem_filter.mp hmem).1
    unfold fullDayArticles at hfd
    have := ((sortBy_perm _ _).mem_iff).mp hfd
    exact hmain (List.mem_filter.mp this).1

def c4item : NewsItem where
  title := "tomorrow"
  summary := ""
  url := "https://future"
  source := "x"
  date := "01-03-2024"
  inserted_at := none
  source_type := none
  moreCoverage := some []
  tags := some []

theorem claim_c4_witness :
    (parseMDY "01-03-2024" = some 1704240000000
      ∧ (0 : Int) ≤ 1704153600000
      ∧ (1704153600000 : Int) < 1704240000000)
    ∧ c4item ∉ sortedNews [c4item] (some 1704153600000)
    ∧ c4item ∉ currentNewsItems [c4item] (some 1704153600000) 1
    ∧ c4item ∉ fullDayArticles [] (sortedNews [c4item] (some 1704153600000)) "01-03-2024"
    ∧ c4item ∉ allArticlesOf [] [c4item] (some 1704153600000) 1 "01-03-2024" :=
  ⟨⟨by decide, by decide, by decide⟩,
   (claim_c4 [] [c4item] c4item 1704240000000 1704153600000 (by decide) (by decide) (by decide)).1,
   (claim_c4 [] [c4item] c4item 1704240000000 1704153600000 (by decide) (by decide) (by decide)).2.1 1,
   (claim_c4 [] [c4item] c4item 1704240000000 1704153600000 (by decide) (by decide) (by decide)).2.2.1 "01-03-2024",
   (claim_c4 [] [c4item] c4item 1704240000000 1704153600000 (by decide) (by decide) (by decide)).2.2.2 1 "01-03-2024"⟩

def c9item : NewsItem where
  title := "undated"
  summary := ""
  url := "https://nodate"
  source := "x"
  date := ""
  inserted_at := none
  source_type := none
  moreCoverage := some []
  tags := some []

/-- Counterexample to claim C9 as stated: a single undated item is
grouped under the synthetic day "unknown", but that day IS rendered with
a spotlight — the algorithmic queue fills slot 1 with the undated item
and the render guard passes on the day's owning page. -/
theorem claim_c9_cex :
    dayKey c9item = "unknown"
    ∧ renderedSpotlight [] [c9item] [] (some 0) 1 "unknown" ≠ none := by
  refine ⟨by decide, by decide⟩

/-- Claim C9 amended: every NewsItem with a missing date is grouped
under the single synthetic day key "unknown"; but the synthetic day is
rendered like any other day — when no override targets "unknown" and the
day has items on its owning page, a spotlight (with an algorithmic lead)
IS rendered for it. -/
theorem claim_c9_amended (wl : List WhitelistEntry) (news : List NewsItem)
    (ovs : List SpotlightOverride) (todayPT : Option Int) (p : Nat)
    (hov : ∀ o ∈ ovs, o.dispatch_date ≠ "unknown")
    (hitems : dayItemsOf news todayPT p "unknown" ≠ [])
    (hsd : (spotlightDays news todayPT p).contains "unknown" = true) :
    (∀ item : NewsItem, item.date = "" → dayKey item = "unknown")
    ∧ (∀ it ∈ currentNewsItems news todayPT p, it.date = "" →
        it ∈ dayItemsOf news todayPT p "unknown")
    ∧ renderedSpotlight wl news ovs todayPT p "unknown" ≠ none := by
  have hovfilter : ∀ s : Nat,
      ovs.filter (fun o => o.dispatch_date == "unknown" && o.slot == s) = [] := by
    intro s
    rw [List.filter_eq_nil_iff]
    intro o ho
    have := hov o ho
    simp [this]
  have hdayfilter : ovs.filter (fun o => o.dispatch_date == "unknown") = [] := by
    rw [List.filter_eq_nil_iff]
    intro o ho
    have := hov o ho
    simp [this]
  have hnoov : ∀ s : Nat, overrideFor ovs "unknown" s = none := by
    intro s
    unfold overrideFor
    rw [hovfilter s]
    rfl
  have hnourls : overriddenUrls ovs "unknown" = [] := by
    unfold overriddenUrls
    rw [hdayfilter]
    rfl
  have hqueue : algoQueueOf wl news ovs todayPT p "unknown" =
      sortBy (scoreLe wl) (dayItemsOf news todayPT p "unknown") := by
    unfold algoQueueOf
    rw [hnourls]
    simp
  have hqne : algoQueueOf wl news ovs todayPT p "unknown" ≠ [] := by
    rw [hqueue]
    intro h
    have hlen := (sortBy_perm (scoreLe wl) (dayItemsOf news todayPT p "unknown")).length_eq
    rw [h] at hlen
    exact hitems (List.eq_nil_of_length_eq_zero hlen.symm)
  refine ⟨?_, ?_, ?_⟩
  · intro item h
    unfold dayKey
    rw [h]
    rfl
  · intro it hmem h
    unfold dayItemsOf
    rw [List.mem_filter]
    refine ⟨hmem, ?_⟩
    unfold dayKey
    rw [h]
    rfl
  · cases hq : algoQueueOf wl news ovs todayPT p "unknown" with
    | nil => exact absurd hq hqne
    | cons x q' =>
      have hlead : leadSlotOf wl news ovs todayPT p "unknown" = some x := by
        unfold leadSlotOf spotlightSlotsOf
        rw [hq]
        simp [slotFill, hnoov 1]
      unfold renderedSpotlight
      rw [hlead, hsd]
      simp

theorem claim_c9_amended_witness :
    ((∀ o ∈ ([] : List SpotlightOverride), o.dispatch_date ≠ "unknown")
      ∧ dayItemsOf [c9item] (some 0) 1 "unknown" ≠ []
      ∧ (spotlightDays [c9item] (some 0) 1).contains "unknown" = true)
    ∧ renderedSpotlight [] [c9item] [] (some 0) 1 "unknown" ≠ none :=
  ⟨⟨by decide, by decide, by decide⟩,
   (claim_c9_amended [] [c9item] [] (some 0) 1 (by decide) (by decide) (by decide)).2.2⟩

def c8item : NewsItem where
  title := "only story"
  summary := ""
  url := "https://a"
  source := "x"
  date := "01-01-2024"
  inserted_at := none
  source_type := none
  moreCoverage := some []
  tags := some []

def c8ov : SpotlightOverride where
  dispatch_date := "01-01-2024"
  slot := 2
  url := "https://a"
  title := some "Pinned also-today"
  source := some "y"
  summary := none
  tags := none

/-- Counterexample to claim C8 as stated: the day's only item is pinned
by a slot-2 override, so the algorithmic queue is empty and slot 1 is
empty while slot 2 is occupied; the non-empty "Also Today" slot exists
in the computed slots, yet NOTHING is rendered, because the whole
spotlight card (sidebar included) sits behind the `leadSlot &&` guard. -/
theorem claim_c8_cex :
    overrideFor [c8ov] "01-01-2024" 1 = none
    ∧ algoQueueOf [] [c8item] [c8ov] (parseMDY "01-02-2024") 1 "01-01-2024" = []
    ∧ overrideFor [c8ov] "01-01-2024" 2 = some c8ov
    ∧ alsoTodayOf [] [c8item] [c8ov] (parseMDY "01-02-2024") 1 "01-01-2024" ≠ []
    ∧ (spotlightDays [c8item] (parseMDY "01-02-2024") 1).contains "01-01-2024" = true
    ∧ renderedSpotlight [] [c8item] [c8ov] (parseMDY "01-02-2024") 1 "01-01-2024" = none := by
  refine ⟨by decide, by decide, by decide, by decide, by decide, by decide⟩

/-- Claim C8 amended: when a day has no slot-1 override and its
algorithmic queue is exhausted, the lead slot is empty and the day
renders no spotlight card at all — the non-empty "Also Today" slots 2-4
are suppressed together with the lead, not rendered on their own. -/
theorem claim_c8_amended (wl : List WhitelistEntry) (news : List NewsItem)
    (ovs : List SpotlightOverride) (todayPT : Option Int) (p : Nat) (day : String)
    (h1 : overrideFor ovs day 1 = none)
    (h2 : algoQueueOf wl news ovs todayPT p day = []) :
    leadSlotOf wl news ovs todayPT p day = none
    ∧ renderedSpotlight wl news ovs todayPT p day = none := by
  have hlead : leadSlotOf wl news ovs todayPT p day = none := by
    unfold leadSlotOf spotlightSlotsOf
    rw [h2]
    simp [slotFill, h1]
  refine ⟨hlead, ?_⟩
  unfold renderedSpotlight
  rw [hlead]

theorem claim_c8_amended_witness :
    (overrideFor [c8ov] "01-01-2024" 1 = none
      ∧ algoQueueOf [] [c8item] [c8ov] (parseMDY "01-02-2024") 1 "01-01-2024" = [])
    ∧ leadSlotOf [] [c8item] [c8ov] (parseMDY "01-02-2024") 1 "01-01-2024" = none
    ∧ renderedSpotlight [] [c8item] [c8ov] (parseMDY "01-02-2024") 1 "01-01-2024" = none :=
  ⟨⟨by decide, by decide⟩,
   claim_c8_amended [] [c8item] [c8ov] (parseMDY "01-02-2024") 1 "01-01-2024"
     (by decide) (by decide)⟩

/-- The day ranking stated by the claim: verification status first
(verified before unverified), then sourceType ordinal weight ascending
(priority=1, standard=2, delist=3, a missing sourceType counting as
standard), then insertedAt descending (newest first). -/
def canonLe (wl : List WhitelistEntry) (a b : NewsItem) : Prop :=
  (checkIfVerified wl a = true ∧ checkIfVerified wl b = false)
  ∨ (checkIfVerified wl a = checkIfVerified wl b
     ∧ (sourceWeight a.source_type < sourceWeight b.source_type
        ∨ (sourceWeight a.source_type = sourceWeight b.source_type
           ∧ insertedAtMs b ≤ insertedAtMs a)))

theorem riverLe_iff (wl : List WhitelistEntry) (a b : NewsItem) :
    riverLe wl a b = true ↔ canonLe wl a b := by
  unfold riverLe riverCmp canonLe
  cases hva : checkIfVerified wl a <;> cases hvb : checkIfVerified wl b <;>
    simp [hva, hvb] <;> (constructor <;> intro h) <;> omega

theorem canonLe_trans (wl : List WhitelistEntry) (a b c : NewsItem)
    (hab : canonLe wl a b) (hbc : canonLe wl b c) : canonLe wl a c := by
  unfold canonLe at *
  rcases hab with ⟨ha1, ha2⟩ | ⟨ha1, ha2⟩ <;> rcases hbc with ⟨hb1, hb2⟩ | ⟨hb1, hb2⟩
  · rw [hb1] at ha2; exact absurd ha2 (by simp)
  · exact Or.inl ⟨ha1, hb1 ▸ ha2⟩
  · exact Or.inl ⟨ha1 ▸ hb1, hb2⟩
  · exact Or.inr ⟨ha1.trans hb1, by omega⟩

theorem canonLe_total (wl : List WhitelistEntry) (a b : NewsItem) :
    canonLe wl a b ∨ canonLe wl b a := by
  unfold canonLe
  cases hva : checkIfVerified wl a <;> cases hvb : checkIfVerified wl b <;> simp <;> omega

/-- Claim C6: for every day, `fullDayArticles` is exactly the day's items
(a permutation of the day filter of the input list), arranged so that
every earlier item relates to every later one by the claimed order —
verified first, then sourceType weight ascending, then insertedAt
descending — and the river actually displayed for the day on any page
(`allArticles`) is in that same order. -/
theorem claim_c6 (wl : List WhitelistEntry) (allNews news : List NewsItem)
    (todayPT : Option Int) (p : Nat) (day : String) :
    List.Pairwise (canonLe wl) (fullDayArticles wl allNews day)
    ∧ List.Perm (fullDayArticles wl allNews day)
        (allNews.filter (fun it => dayKey it == day))
    ∧ List.Pairwise (canonLe wl) (allArticlesOf wl news todayPT p day) := by
  have hpw : ∀ l : List NewsItem,
      List.Pairwise (canonLe wl) (sortBy (riverLe wl) l) := by
    intro l
    have := pairwise_sortBy (riverLe wl) l
      (fun a _ b _ c _ hab hbc => (riverLe_iff wl a c).mpr
        (canonLe_trans wl a b c ((riverLe_iff wl a b).mp hab) ((riverLe_iff wl b c).mp hbc)))
      (fun a _ b _ => by
        rcases canonLe_total wl a b with h | h
        · exact Or.inl ((riverLe_iff wl a b).mpr h)
        · exact Or.inr ((riverLe_iff wl b a).mpr h))
    exact this.imp (fun h => (riverLe_iff wl _ _).mp h)
  refine ⟨hpw _, sortBy_perm _ _, ?_⟩
  unfold allArticlesOf fullDayArticles
  exact List.Pairwise.filter _ (hpw _)

/-- The first `k` pops of a queue, with `none` after exhaustion. -/
def padNone (k : Nat) (q : List NewsItem) : List (Option NewsItem) :=
  match k, q with
  | 0, _ => []
  | k + 1, [] => none :: padNone k []
  | k + 1, x :: q' => some x :: padNone k q'

/-- The values a slot list assigns to its non-override slots, in slot
order. -/
def freeSlotValues (ov : Nat → Option SpotlightOverride) (sl : List Nat)
    (out : List (Option NewsItem)) : List (Option NewsItem) :=
  (sl.zip out).filterMap (fun pr => if (ov pr.1).isNone then some pr.2 else none)

theorem slotFill_free (ov : Nat → Option SpotlightOverride) (day : String) :
    ∀ (sl : List Nat) (q : List NewsItem),
      freeSlotValues ov sl (slotFill ov day sl q) =
        padNone (sl.countP (fun s => (ov s).isNone)) q := by
  intro sl
  induction sl with
  | nil => intro q; rfl
  | cons s rest ih =>
    intro q
    cases hov : ov s with
    | some o =>
      have hcount : (s :: rest).countP (fun s => (ov s).isNone) =
          rest.countP (fun s => (ov s).isNone) := by
        rw [List.countP_cons]
        simp [hov]
      rw [hcount]
      simp only [slotFill, hov, freeSlotValues, List.zip_cons_cons, List.filterMap_cons]
      simp only [hov, Option.isNone_some, if_neg]
      exact ih q
    | none =>
      have hcount : (s :: rest).countP (fun s => (ov s).isNone) =
          rest.countP (fun s => (ov s).isNone) + 1 := by
        rw [List.countP_cons]
        simp [hov]
      rw [hcount]
      cases q with
      | nil =>
        simp only [slotFill, hov, freeSlotValues, List.zip_cons_cons, List.filterMap_cons]
        simp only [hov, Option.isNone_none, if_pos]
        rw [show rest.countP (fun s => (ov s).isNone) + 1 =
          (rest.countP (fun s => (ov s).isNone)) + 1 from rfl]
        simp only [padNone]
        exact congrArg (none :: ·) (ih [])
      | cons x q' =>
        simp only [slotFill, hov, freeSlotValues, List.zip_cons_cons, List.filterMap_cons]
        simp only [hov, Option.isNone_none, if_pos]
        simp only [padNone]
        exact congrArg (some x :: ·) (ih q')

/-- The `spotlight_overrides` composite-key invariant: no two rows share
a (dispatch_date, slot) pair (enforced upstream by the table's key). -/
def compositeOK (ovs : List SpotlightOverride) : Prop :=
  (ovs.map (fun o => (o.dispatch_date, o.slot))).Nodup

instance (ovs : List SpotlightOverride) : Decidable (compositeOK ovs) := by
  unfold compositeOK
  infer_instance

theorem contains_eq_decide_mem [BEq α] [LawfulBEq α] (l : List α) (a : α) :
    l.contains a = decide (a ∈ l) := by
  by_cases h : a ∈ l <;> simp [List.contains, List.elem_iff, h]

theorem overrideFor_eq_of_mem {ovs : List SpotlightOverride} {o : SpotlightOverride}
    {day : String} {s : Nat}
    (h : compositeOK ovs) (ho : o ∈ ovs) (hd : o.dispatch_date = day) (hs : o.slot = s) :
    overrideFor ovs day s = some o := by
  induction ovs with
  | nil => simp at ho
  | cons x rest ih =>
    rcases List.nodup_cons.mp h with ⟨hx, hrest⟩
    unfold overrideFor at ih ⊢
    rcases List.mem_cons.mp ho with rfl | ho'
    · have hpx : (o.dispatch_date == day && o.slot == s) = true := by
        simp [hd, hs]
      rw [List.filter_cons, if_pos hpx]
      have hnil : rest.filter (fun o => o.dispatch_date == day && o.slot == s) = [] := by
        rw [List.filter_eq_nil_iff]
        intro y hy hpy
        apply hx
        have h1 : y.dispatch_date = day := by
          have := (Bool.and_eq_true _ _).mp hpy
          exact eq_of_beq this.1
        have h2 : y.slot = s := by
          have := (Bool.and_eq_true _ _).mp hpy
          exact eq_of_beq this.2
        rw [← hd] at h1
        rw [← hs] at h2
        rw [List.mem_map]
        exact ⟨y, hy, by simp [h1, h2]⟩
      rw [hnil]
      rfl
    · have hpx : (x.dispatch_date == day && x.slot == s) = false := by
        by_contra hcon
        have hpx' : (x.dispatch_date == day && x.slot == s) = true := by
          cases hb : (x.dispatch_date == day && x.slot == s) with
          | false => exact absurd hb hcon
          | true => rfl
        have h1 : x.dispatch_date = day := eq_of_beq ((Bool.and_eq_true _ _).mp hpx').1
        have h2 : x.slot = s := eq_of_beq ((Bool.and_eq_true _ _).mp hpx').2
        apply hx
        rw [List.mem_map]
        exact ⟨o, ho', by simp [hd, hs, h1, h2]⟩
      rw [List.filter_cons, if_neg (by simp [hpx])]
      exact ih hrest ho'

theorem mem_dedupFirstGo [BEq α] [LawfulBEq α] {x : α} :
    ∀ (l seen : List α), x ∈ dedupFirstGo l seen ↔ x ∈ l ∧ seen.contains x = false := by
  intro l
  induction l with
  | nil => intro seen; simp [dedupFirstGo]
  | cons d ds ih =>
    intro seen
    unfold dedupFirstGo
    by_cases hd : seen.contains d = true
    · rw [if_pos hd, ih seen]
      constructor
      · rintro ⟨h1, h2⟩
        exact ⟨List.mem_cons_of_mem _ h1, h2⟩
      · rintro ⟨h1, h2⟩
        rcases List.mem_cons.mp h1 with rfl | h1'
        · rw [hd] at h2; exact absurd h2 (by simp)
        · exact ⟨h1', h2⟩
    · rw [if_neg hd]
      have hd' : seen.contains d = false := by
        cases hb : seen.contains d with
        | false => rfl
        | true => exact absurd hb hd
      constructor
      · intro h
        rcases List.mem_cons.mp h with rfl | h'
        · exact ⟨List.mem_cons_self _ _, hd'⟩
        · rcases (ih (d :: seen)).mp h' with ⟨h1, h2⟩
          simp only [List.contains_cons, Bool.or_eq_false_iff] at h2
          exact ⟨List.mem_cons_of_mem _ h1, h2.2⟩
      · rintro ⟨h1, h2⟩
        rcases List.mem_cons.mp h1 with rfl | h1'
        · exact List.mem_cons_self _ _
        · by_cases hxd : x = d
          · subst hxd; exact List.mem_cons_self _ _
          · refine List.mem_cons_of_mem _ ((ih (d :: seen)).mpr ⟨h1', ?_⟩)
            simp only [List.contains_cons, Bool.or_eq_false_iff]
            refine ⟨?_, h2⟩
            simp [hxd]

theorem mem_overriddenUrls {ovs : List SpotlightOverride} {day : String} {u : String}
    (h : compositeOK ovs) :
    u ∈ overriddenUrls ovs day ↔ ∃ o ∈ ovs, o.dispatch_date = day ∧ o.url = u := by
  unfold overriddenUrls
  rw [List.mem_filterMap]
  constructor
  · rintro ⟨s, hs, hsome⟩
    cases hov : overrideFor ovs day s with
    | none => rw [hov] at hsome; simp at hsome
    | some o =>
      rw [hov] at hsome
      have hou : o.url = u := by simpa using hsome
      have homem : o ∈ ovs.filter (fun o => o.dispatch_date == day && o.slot == s) := by
        unfold overrideFor at hov
        exact List.mem_of_mem_getLast? hov
      rcases List.mem_filter.mp homem with ⟨ho, hp⟩
      refine ⟨o, ho, eq_of_beq ((Bool.and_eq_true _ _).mp hp).1, hou⟩
  · rintro ⟨o, ho, hd, hu⟩
    refine ⟨o.slot, ?_, ?_⟩
    · rw [mem_dedupFirstGo]
      refine ⟨?_, rfl⟩
      rw [List.mem_map]
      exact ⟨o, List.mem_filter.mpr ⟨ho, by simp [hd]⟩, rfl⟩
    · rw [overrideFor_eq_of_mem h ho hd rfl]
      simp [hu]

/-- Claim C7 amended: for each day, every spotlight slot 1-4 without an
override is filled in slot order by popping the next item of the
algorithmic queue (empty when exhausted); but the queue consists of the
day's items ON THE CURRENT PAGE (the `grouped[day]` slice), not of all
fetched NewsItems of the day — minus every item whose url is pinned by
one of the day's overrides, ordered by score descending. -/
theorem claim_c7_amended (wl : List WhitelistEntry) (news : List NewsItem)
    (ovs : List SpotlightOverride) (todayPT : Option Int) (p : Nat) (day : String)
    (h : compositeOK ovs) :
    List.Perm (algoQueueOf wl news ovs todayPT p day)
      ((dayItemsOf news todayPT p day).filter
        (fun it => decide (¬ ∃ o ∈ ovs, o.dispatch_date = day ∧ o.url = it.url)))
    ∧ List.Pairwise (fun a b => scoreArticle wl b ≤ scoreArticle wl a)
        (algoQueueOf wl news ovs todayPT p day)
    ∧ freeSlotValues (overrideFor ovs day) [1, 2, 3, 4]
        (spotlightSlotsOf wl news ovs todayPT p day) =
      padNone (([1, 2, 3, 4] : List Nat).countP (fun s => (overrideFor ovs day s).isNone))
        (algoQueueOf wl news ovs todayPT p day) := by
  refine ⟨?_, ?_, slotFill_free (overrideFor ovs day) day [1, 2, 3, 4] _⟩
  · unfold algoQueueOf
    have hperm := (sortBy_perm (scoreLe wl) (dayItemsOf news todayPT p day)).filter
      (fun it => !(overriddenUrls ovs day).contains it.url)
    refine hperm.trans ?_
    rw [List.filter_congr ?_]
    intro it _
    rw [contains_eq_decide_mem]
    by_cases hmem : it.url ∈ overriddenUrls ovs day
    · have : ∃ o ∈ ovs, o.dispatch_date = day ∧ o.url = it.url :=
        (mem_overriddenUrls h).mp hmem
      simp [hmem, this]
    · have : ¬ ∃ o ∈ ovs, o.dispatch_date = day ∧ o.url = it.url := by
        intro hex
        exact hmem ((mem_overriddenUrls h).mpr hex)
      simp [hmem, this]
  · unfold algoQueueOf
    refine List.Pairwise.filter _ ?_
    have := pairwise_sortBy (scoreLe wl) (dayItemsOf news todayPT p day)
      (fun a _ b _ c _ hab hbc => by
        unfold scoreLe at *
        simp only [decide_eq_true_eq] at *
        omega)
      (fun a _ b _ => by
        unfold scoreLe
        simp only [decide_eq_true_eq]
        omega)
    refine this.imp ?_
    intro a b hab
    unfold scoreLe at hab
    simp only [decide_eq_true_eq] at hab
    omega

theorem claim_c7_amended_witness :
    compositeOK [c1ov]
    ∧ (List.Perm (algoQueueOf [] [c1item] [c1ov] (parseMDY "01-02-2024") 1 "01-01-2024")
        ((dayItemsOf [c1item] (parseMDY "01-02-2024") 1 "01-01-2024").filter
          (fun it => decide (¬ ∃ o ∈ [c1ov], o.dispatch_date = "01-01-2024" ∧ o.url = it.url)))
      ∧ List.Pairwise (fun a b => scoreArticle [] b ≤ scoreArticle [] a)
          (algoQueueOf [] [c1item] [c1ov] (parseMDY "01-02-2024") 1 "01-01-2024")
      ∧ freeSlotValues (overrideFor [c1ov] "01-01-2024") [1, 2, 3, 4]
          (spotlightSlotsOf [] [c1item] [c1ov] (parseMDY "01-02-2024") 1 "01-01-2024") =
        padNone (([1, 2, 3, 4] : List Nat).countP
            (fun s => (overrideFor [c1ov] "01-01-2024" s).isNone))
          (algoQueueOf [] [c1item] [c1ov] (parseMDY "01-02-2024") 1 "01-01-2024")) :=
  ⟨by decide,
   claim_c7_amended [] [c1item] [c1ov] (parseMDY "01-02-2024") 1 "01-01-2024" (by decide)⟩

/-- Follows the claim's words (spec §4.4, "all NewsItems for the day")
for comparison with the implementation: the algorithmic queue built from
every fetched item of the day rather than the current page's slice. -/
def specAlgoQueue (wl : List WhitelistEntry) (news : List NewsItem)
    (ovs : List SpotlightOverride) (todayPT : Option Int) (day : String) : List NewsItem :=
  (sortBy (scoreLe wl) ((sortedNews news todayPT).filter (fun it => dayKey it == day))).filter
    (fun it => !(overriddenUrls ovs day).contains it.url)

/-- The spotlight slots the claim's queue would produce. -/
def specSpotlightSlots (wl : List WhitelistEntry) (news : List NewsItem)
    (ovs : List SpotlightOverride) (todayPT : Option Int) (day : String) :
    List (Option NewsItem) :=
  slotFill (overrideFor ovs day) day [1, 2, 3, 4] (specAlgoQueue wl news ovs todayPT day)

def c7base (u : String) : NewsItem where
  title := ""
  summary := ""
  url := u
  source := "x"
  date := "01-01-2024"
  inserted_at := none
  source_type := none
  moreCoverage := some []
  tags := some []

/-- Twenty-one items of one dispatch day, in fetch order; only the last
one (which lands on page 2) carries a coverage link and so outscores the
rest. -/
def c7items : List NewsItem :=
  (["u0", "u1", "u2", "u3", "u4", "u5", "u6", "u7", "u8", "u9", "u10", "u11", "u12",
    "u13", "u14", "u15", "u16", "u17", "u18", "u19"].map c7base)
  ++ [{ c7base "u20" with moreCoverage := some [{ source := "s", url := "c" }] }]

/-- Counterexample to claim C7 as stated: with a 21-item day straddling
pages 1 and 2, the code's queue (built from the page-1 slice) differs
from the claimed queue (built from all of the day's items): the highest-
scoring item u20 sits on page 2, so the code's lead is u0 while the
claimed queue's lead is u20. -/
theorem claim_c7_cex :
    spotlightSlotsOf [] c7items [] (parseMDY "01-02-2024") 1 "01-01-2024" ≠
      specSpotlightSlots [] c7items [] (parseMDY "01-02-2024") "01-01-2024"
    ∧ (leadSlotOf [] c7items [] (parseMDY "01-02-2024") 1 "01-01-2024").map
        (fun i => i.url) = some "u0"
    ∧ (((specSpotlightSlots [] c7items [] (parseMDY "01-02-2024") "01-01-2024").head?).join).map
        (fun i => i.url) = some "u20" := by
  refine ⟨by decide, by decide, by decide⟩

theorem mem_spotlightDaysGo (d : String) :
    ∀ (l : List NewsItem) (i : Nat) (seen : List String) (ps pe : Nat),
      d ∈ spotlightDaysGo l i seen ps pe ↔
        (seen.contains d = false ∧
          ∃ k, List.findIdx? (fun it => dayKey it == d) l i = some k ∧ ps ≤ k ∧ k < pe) := by
  intro l
  induction l with
  | nil =>
    intro i seen ps pe
    simp [spotlightDaysGo, List.findIdx?_nil]
  | cons it rest ih =>
    intro i seen ps pe
    unfold spotlightDaysGo
    rw [List.findIdx?_cons]
    by_cases hsd : seen.contains (dayKey it) = true
    · rw [if_pos hsd, ih (i + 1) seen ps pe]
      by_cases hdd : (dayKey it == d) = true
      · have hdeq : dayKey it = d := eq_of_beq hdd
        rw [if_pos hdd]
        constructor
        · rintro ⟨h1, h2⟩
          rw [← hdeq, hsd] at h1
          exact absurd h1 (by simp)
        · rintro ⟨h1, -⟩
          rw [← hdeq, hsd] at h1
          exact absurd h1 (by simp)
      · rw [if_neg hdd]
    · have hsd' : seen.contains (dayKey it) = false := by
        cases hb : seen.contains (dayKey it) with
        | false => rfl
        | true => exact absurd hb hsd
      rw [if_neg hsd]
      by_cases hdd : (dayKey it == d) = true
      · have hdeq : dayKey it = d := eq_of_beq hdd
        rw [if_pos hdd]
        have htail : d ∉ spotlightDaysGo rest (i + 1) (dayKey it :: seen) ps pe := by
          intro hmem
          have := ((ih (i + 1) (dayKey it :: seen) ps pe).mp hmem).1
          rw [List.contains_cons] at this
          rw [hdeq] at this
          simp at this
        by_cases hrange : ps ≤ i ∧ i < pe
        · rw [if_pos hrange]
          constructor
          · intro _
            refine ⟨hdeq ▸ hsd', i, rfl, hrange.1, hrange.2⟩
          · intro _
            exact hdeq ▸ List.mem_cons_self _ _
        · rw [if_neg hrange]
          constructor
          · intro hmem
            exact absurd hmem htail
          · rintro ⟨-, k, hk, hk1, hk2⟩
            have : k = i := by injection hk with h'; omega
            subst this
            exact absurd ⟨hk1, hk2⟩ hrange
      · have hdne : dayKey it ≠ d := fun he => hdd (beq_iff_eq.mpr he)
        rw [if_neg hdd]
        have hcons : ∀ x : List String,
            d ∈ (if ps ≤ i ∧ i < pe then dayKey it :: x else x) ↔ d ∈ x := by
          intro x
          by_cases hrange : ps ≤ i ∧ i < pe
          · rw [if_pos hrange]
            constructor
            · intro hmem
              rcases List.mem_cons.mp hmem with he | he
              · exact absurd he.symm hdne
              · exact he
            · exact List.mem_cons_of_mem _
          · rw [if_neg hrange]
        rw [hcons, ih (i + 1) (dayKey it :: seen) ps pe]
        have hctr : (dayKey it :: seen).contains d = seen.contains d := by
          rw [List.contains_cons]
          have : (d == dayKey it) = false := by
            cases hb : (d == dayKey it) with
            | false => rfl
            | true => exact absurd (eq_of_beq hb).symm hdne
          rw [this]
          simp
        rw [hctr]

theorem mem_spotlightDays {news : List NewsItem} {todayPT : Option Int} {p : Nat}
    {d : String} :
    d ∈ spotlightDays news todayPT p ↔
      ∃ k, List.findIdx? (fun it => dayKey it == d) (sortedNews news todayPT) = some k ∧
        (p - 1) * newsPerPage ≤ k ∧ k < p * newsPerPage := by
  unfold spotlightDays
  rw [mem_spotlightDaysGo]
  simp

theorem renderedSpotlight_contains {wl : List WhitelistEntry} {news : List NewsItem}
    {ovs : List SpotlightOverride} {todayPT : Option Int} {p : Nat} {d : String}
    (h : renderedSpotlight wl news ovs todayPT p d ≠ none) :
    d ∈ spotlightDays news todayPT p := by
  unfold renderedSpotlight at h
  cases hl : leadSlotOf wl news ovs todayPT p d with
  | none => rw [hl] at h; exact absurd rfl h
  | some l =>
    rw [hl] at h
    by_cases hc : (spotlightDays news todayPT p).contains d = true
    · rw [contains_eq_decide_mem] at hc
      exact of_decide_eq_true hc
    · have hc' : (spotlightDays news todayPT p).contains d = false := by
        cases hb : (spotlightDays news todayPT p).contains d with
        | false => rfl
        | true => exact absurd hb hc
      simp [hc'] at h
      exact h

/-- Claim C2 amended: a day's spotlight card is rendered on AT MOST one
page — necessarily the page on which the day's first item of the sorted
feed falls — and it is rendered there exactly when that page's lead slot
is non-empty; a straddling day whose owning-page lead slot is empty gets
no spotlight on any page. -/
theorem claim_c2_amended (wl : List WhitelistEntry) (news : List NewsItem)
    (ovs : List SpotlightOverride) (todayPT : Option Int) (d : String) :
    (∀ p p', renderedSpotlight wl news ovs todayPT p d ≠ none →
      renderedSpotlight wl news ovs todayPT p' d ≠ none → p = p')
    ∧ (∀ p, renderedSpotlight wl news ovs todayPT p d ≠ none →
        ∃ k, List.findIdx? (fun it => dayKey it == d) (sortedNews news todayPT) = some k ∧
          (p - 1) * newsPerPage ≤ k ∧ k < p * newsPerPage)
    ∧ (∀ p, d ∈ spotlightDays news todayPT p →
        ∀ l, leadSlotOf wl news ovs todayPT p d = some l →
          renderedSpotlight wl news ovs todayPT p d =
            some { lead := l, alsoToday := alsoTodayOf wl news ovs todayPT p d }) := by
  refine ⟨?_, ?_, ?_⟩
  · intro p p' hp hp'
    rcases mem_spotlightDays.mp (renderedSpotlight_contains hp) with ⟨k, hk, hk1, hk2⟩
    rcases mem_spotlightDays.mp (renderedSpotlight_contains hp') with ⟨k', hk', hk1', hk2'⟩
    have hkk : k = k' := by
      rw [hk] at hk'
      injection hk'
    subst hkk
    unfold newsPerPage at hk1 hk2 hk1' hk2'
    omega
  · intro p hp
    exact mem_spotlightDays.mp (renderedSpotlight_contains hp)
  · intro p hmem l hl
    unfold renderedSpotlight
    rw [hl]
    have hc : (spotlightDays news todayPT p).contains d = true := by
      rw [contains_eq_decide_mem]
      exact decide_eq_true hmem
    simp [hc]
    exact hmem

theorem claim_c2_amended_witness :
    renderedSpotlight [] [c9item] [] (some 0) 1 "unknown" ≠ none
    ∧ (∃ k, List.findIdx? (fun it => dayKey it == "unknown") (sortedNews [c9item] (some 0)) =
        some k ∧ (1 - 1) * newsPerPage ≤ k ∧ k < 1 * newsPerPage) :=
  ⟨by decide,
   (claim_c2_amended [] [c9item] [] (some 0) "unknown").2.1 1 (by decide)⟩

def c2base (u : String) (d : String) : NewsItem where
  title := ""
  summary := ""
  url := u
  source := "x"
  date := d
  inserted_at := none
  source_type := none
  moreCoverage := some []
  tags := some []

/-- Seventeen items of the newer day `01-02-2024` followed by four items
of the older day `01-01-2024`; sorted descending they occupy indices
0..16 and 17..20, so day `01-01-2024` owns page 1 (its first item is at
index 17) while its last item sits on page 2. -/
def c2items : List NewsItem :=
  (["e0", "e1", "e2", "e3", "e4", "e5", "e6", "e7", "e8", "e9", "e10", "e11", "e12",
    "e13", "e14", "e15", "e16"].map (fun u => c2base u "01-02-2024"))
  ++ (["d0", "d1", "d2", "d3"].map (fun u => c2base u "01-01-2024"))

def c2ov (s : Nat) (u : String) : SpotlightOverride where
  dispatch_date := "01-01-2024"
  slot := s
  url := u
  title := some "pin"
  source := none
  summary := none
  tags := none

/-- Overrides pinning, for day `01-01-2024`, exactly the three urls of
that day's page-1 items into slots 2-4. -/
def c2ovs : List SpotlightOverride := [c2ov 2 "d0", c2ov 3 "d1", c2ov 4 "d2"]

/-- Counterexample to claim C2 as stated: day `01-01-2024` spans pages 1
and 2, and the claim predicts that exactly one page — page 1, where the
day's first-ranked item falls — renders its spotlight as non-null; but
on page 1 all of the day's on-page urls are pinned by slot 2-4 overrides,
the algorithmic queue is empty, slot 1 is empty and the guard suppresses
the card, while page 2 does not own the day: NO page renders it. -/
theorem claim_c2_cex :
    dayItemsOf c2items (parseMDY "01-02-2024") 1 "01-01-2024" ≠ []
    ∧ dayItemsOf c2items (parseMDY "01-02-2024") 2 "01-01-2024" ≠ []
    ∧ List.findIdx? (fun it => dayKey it == "01-01-2024")
        (sortedNews c2items (parseMDY "01-02-2024")) = some 17
    ∧ renderedSpotlight [] c2items c2ovs (parseMDY "01-02-2024") 1 "01-01-2024" = none
    ∧ renderedSpotlight [] c2items c2ovs (parseMDY "01-02-2024") 2 "01-01-2024" = none := by
  refine ⟨by decide, by decide, by decide, by decide, by decide⟩

theorem flatMap_dedupFirstGo_filter_perm [BEq β] [LawfulBEq β] (k : α → β) :
    ∀ (l : List α) (seen : List β),
      List.Perm
        ((dedupFirstGo (l.map k) seen).flatMap (fun d => l.filter (fun x => k x == d)))
        (l.filter (fun x => !(seen.contains (k x)))) := by
  intro l
  induction l with
  | nil => intro seen; simp [dedupFirstGo]
  | cons x xs ih =>
    intro seen
    simp only [List.map_cons]
    unfold dedupFirstGo
    by_cases hc : seen.contains (k x) = true
    · rw [if_pos hc]
      have hcongr : (dedupFirstGo (xs.map k) seen).flatMap
            (fun d => (x :: xs).filter (fun y => k y == d)) =
          (dedupFirstGo (xs.map k) seen).flatMap
            (fun d => xs.filter (fun y => k y == d)) := by
        apply List.flatMap_congr
        intro d hd
        have hdprop := (mem_dedupFirstGo (xs.map k) seen).mp hd
        have hne : (k x == d) = false := by
          cases hb : (k x == d) with
          | false => rfl
          | true =>
            have he : k x = d := eq_of_beq hb
            rw [he, hdprop.2] at hc
            exact absurd hc (by simp)
        rw [List.filter_cons, if_neg (by simp [hne])]
      have hm : k x ∈ seen := by
        rw [contains_eq_decide_mem] at hc
        exact of_decide_eq_true hc
      rw [hcongr, List.filter_cons, if_neg (by simp [hm])]
      exact ih seen
    · have hc' : seen.contains (k x) = false := by
        cases hb : seen.contains (k x) with
        | false => rfl
        | true => exact absurd hb hc
      rw [if_neg hc]
      rw [List.flatMap_cons]
      have hhead : (x :: xs).filter (fun y => k y == k x) =
          x :: xs.filter (fun y => k y == k x) := by
        rw [List.filter_cons, if_pos (by simp)]
      have htail : (dedupFirstGo (xs.map k) (k x :: seen)).flatMap
            (fun d => (x :: xs).filter (fun y => k y == d)) =
          (dedupFirstGo (xs.map k) (k x :: seen)).flatMap
            (fun d => xs.filter (fun y => k y == d)) := by
        apply List.flatMap_congr
        intro d hd
        have hdprop := (mem_dedupFirstGo (xs.map k) (k x :: seen)).mp hd
        have hd2 := hdprop.2
        rw [List.contains_cons] at hd2
        rcases Bool.or_eq_false_iff.mp hd2 with ⟨h1, h2⟩
        have hne : (k x == d) = false := by
          cases hb : (k x == d) with
          | false => rfl
          | true =>
            have hdx : d = k x := (eq_of_beq hb).symm
            rw [hdx] at h1
            simp at h1
        rw [List.filter_cons, if_neg (by simp [hne])]
      have hnm : k x ∉ seen := by
        rw [contains_eq_decide_mem] at hc'
        exact of_decide_eq_false hc'
      rw [htail, hhead, List.cons_append, List.filter_cons, if_pos (by simp [hnm])]
      refine List.Perm.cons x ?_
      refine (List.Perm.append_left _ (ih (k x :: seen))).trans ?_
      have e1 : (xs.filter (fun y => !seen.contains (k y))).filter (fun y => k y == k x) =
          xs.filter (fun y => k y == k x) := by
        rw [List.filter_filter]
        apply List.filter_congr
        intro y _
        cases hb : (k y == k x) with
        | false => simp [hb]
        | true =>
          have he : k y = k x := eq_of_beq hb
          simp [he, hnm]
      have e2 : (xs.filter (fun y => !seen.contains (k y))).filter (fun y => !(k y == k x)) =
          xs.filter (fun y => !((k x :: seen).contains (k y))) := by
        rw [List.filter_filter]
        apply List.filter_congr
        intro y _
        rw [List.contains_cons]
        cases hb : (k y == k x) <;> cases hbs : seen.contains (k y) <;>
          simp only [hb, hbs, Bool.not_true, Bool.not_false, Bool.and_true, Bool.and_false,
            Bool.true_or, Bool.false_or, Bool.true_and, Bool.false_and, Bool.or_true,
            Bool.or_false]
      rw [← e1, ← e2]
      exact List.filter_append_perm _ _

theorem allArticlesOf_perm (wl : List WhitelistEntry) (news : List NewsItem)
    (todayPT : Option Int) (p : Nat) (day : String)
    (hnd : ((sortedNews news todayPT).map (fun it => it.url)).Nodup) :
    List.Perm (allArticlesOf wl news todayPT p day) (dayItemsOf news todayPT p day) := by
  have hndS : (sortedNews news todayPT).Nodup := List.Nodup.of_map _ hnd
  have hsubP : (currentNewsItems news todayPT p).Sublist (sortedNews news todayPT) :=
    (List.take_sublist _ _).trans (List.drop_sublist _ _)
  have h1 : List.Perm (allArticlesOf wl news todayPT p day)
      (((sortedNews news todayPT).filter (fun it => dayKey it == day)).filter
        (fun a => (currentPageUrlsOf news todayPT p day).contains a.url)) := by
    unfold allArticlesOf fullDayArticles
    exact (sortBy_perm _ _).filter _
  refine h1.trans ?_
  refine (List.perm_ext_iff_of_nodup ((hndS.filter _).filter _) ?_).mpr ?_
  · exact List.Nodup.sublist ((List.filter_sublist _).trans hsubP) hndS
  · intro a
    constructor
    · intro ha
      rcases List.mem_filter.mp ha with ⟨ha1, ha2⟩
      rcases List.mem_filter.mp ha1 with ⟨haS, haday⟩
      rw [contains_eq_decide_mem] at ha2
      have ha2' := of_decide_eq_true ha2
      unfold currentPageUrlsOf at ha2'
      rcases List.mem_map.mp ha2' with ⟨y, hy, hyurl⟩
      have hyS : y ∈ sortedNews news todayPT := hsubP.subset (List.mem_of_mem_filter hy)
      have hay : a = y := List.inj_on_of_nodup_map hnd haS hyS hyurl.symm
      rw [hay]
      exact hy
    · intro ha
      rcases List.mem_filter.mp ha with ⟨haP, haday⟩
      refine List.mem_filter.mpr ⟨List.mem_filter.mpr ⟨hsubP.subset haP, haday⟩, ?_⟩
      rw [contains_eq_decide_mem]
      apply decide_eq_true
      unfold currentPageUrlsOf
      exact List.mem_map.mpr ⟨a, ha, rfl⟩

theorem flatMap_range_slices (S : List NewsItem) :
    ∀ N : Nat,
      (List.range N).flatMap (fun i => (S.drop (i * newsPerPage)).take newsPerPage) =
        S.take (N * newsPerPage) := by
  intro N
  induction N with
  | zero => simp
  | succ n ih =>
    rw [List.range_succ, List.flatMap_append, ih]
    simp only [List.flatMap_cons, List.flatMap_nil, List.append_nil]
    rw [← List.take_add, Nat.succ_mul]

/-- Claim C3 amended: with globally unique urls (the stated NewsItem
invariant), concatenating the per-page river lists of all pages in page
order yields a list with no gaps and no repeats — a permutation of the
full future-filtered, date-sorted feed; it is NOT in general the
canonically-sorted sequence itself, because a day that straddles a page
boundary has its within-day canonical order restricted per page. -/
theorem claim_c3_amended (wl : List WhitelistEntry) (news : List NewsItem)
    (todayPT : Option Int)
    (hnd : (news.map (fun it => it.url)).Nodup) :
    List.Perm (allPagesRiver wl news todayPT) (sortedNews news todayPT) := by
  have hndS : ((sortedNews news todayPT).map (fun it => it.url)).Nodup := by
    have hperm : List.Perm (sortedNews news todayPT) (news.filter (futureKeep todayPT)) :=
      sortBy_perm _ _
    have hsubnd : ((news.filter (futureKeep todayPT)).map (fun it => it.url)).Nodup :=
      List.Nodup.sublist (List.Sublist.map _ (List.filter_sublist _)) hnd
    exact (hperm.map _).symm.nodup hsubnd
  have hpage : ∀ p : Nat,
      List.Perm (pageRiver wl news todayPT p) (currentNewsItems news todayPT p) := by
    intro p
    unfold pageRiver sortedDaysOf
    refine (List.Perm.flatMap_right _
      (sortBy_perm dayDateLe (dayKeysOf (currentNewsItems news todayPT p)))).trans ?_
    unfold dayKeysOf
    refine (List.Perm.flatMap_left _
      (fun d _ => allArticlesOf_perm wl news todayPT p d hndS)).trans ?_
    have hpart := flatMap_dedupFirstGo_filter_perm dayKey (currentNewsItems news todayPT p) []
    have hfe : (currentNewsItems news todayPT p).filter
        (fun x => !(([] : List String).contains (dayKey x))) =
        currentNewsItems news todayPT p := by
      apply List.filter_eq_self.mpr
      intro a _
      rfl
    rw [hfe] at hpart
    exact hpart
  unfold allPagesRiver
  refine (List.Perm.flatMap_left _ (fun i _ => hpage (i + 1))).trans ?_
  have hslice : ∀ i ∈ List.range (totalNewsPages news todayPT),
      currentNewsItems news todayPT (i + 1) =
        ((sortedNews news todayPT).drop (i * newsPerPage)).take newsPerPage := by
    intro i _
    unfold currentNewsItems
    rfl
  rw [List.flatMap_congr hslice, flatMap_range_slices]
  have hlen : (sortedNews news todayPT).length ≤
      (totalNewsPages news todayPT) * newsPerPage := by
    unfold totalNewsPages newsPerPage
    omega
  rw [List.take_of_length_le hlen]

theorem claim_c3_amended_witness :
    ((c2items.map (fun it => it.url)).Nodup : Prop)
    ∧ List.Perm (allPagesRiver [] c2items (parseMDY "01-02-2024"))
        (sortedNews c2items (parseMDY "01-02-2024")) :=
  ⟨by decide, claim_c3_amended [] c2items (parseMDY "01-02-2024") (by decide)⟩

/-- Follows the spec's words (§4.5 steps 1-2) for comparison: the full
canonically-sorted, future-filtered list — distinct days in descending
dispatch-date order, each day's items in the §4.4 canonical ranking. -/
def specCanonicalList (wl : List WhitelistEntry) (news : List NewsItem)
    (todayPT : Option Int) : List NewsItem :=
  (sortBy dayDateLe (dedupFirstGo ((sortedNews news todayPT).map dayKey) [])).flatMap
    (fun day => fullDayArticles wl (sortedNews news todayPT) day)

def c3base (u : String) : NewsItem where
  title := ""
  summary := ""
  url := u
  source := "x"
  date := "01-01-2024"
  inserted_at := none
  source_type := none
  moreCoverage := some []
  tags := some []

/-- Twenty-one items of one day in fetch order; only the last one (which
lands on page 2) has a newer `inserted_at`, so the canonical ranking
puts it first while the feed order leaves it last. -/
def c3items : List NewsItem :=
  (["u0", "u1", "u2", "u3", "u4", "u5", "u6", "u7", "u8", "u9", "u10", "u11", "u12",
    "u13", "u14", "u15", "u16", "u17", "u18", "u19"].map c3base)
  ++ [{ c3base "u20" with inserted_at := some 100 }]

/-- Counterexample to claim C3 as stated: for a 21-item day straddling
pages 1 and 2 whose canonical-first item sits on page 2, the
concatenation of the page rivers starts with u0 while the full
canonically-sorted list starts with u20 — the concatenation is a
permutation of the feed but does not reproduce the canonical sequence. -/
theorem claim_c3_cex :
    allPagesRiver [] c3items (parseMDY "01-02-2024") ≠
      specCanonicalList [] c3items (parseMDY "01-02-2024")
    ∧ ((allPagesRiver [] c3items (parseMDY "01-02-2024")).head?).map (fun i => i.url) =
        some "u0"
    ∧ ((specCanonicalList [] c3items (parseMDY "01-02-2024")).head?).map (fun i => i.url) =
        some "u20" := by
  refine ⟨?_, by decide, by decide⟩
  intro h
  have h2 := congrArg (fun L => (L.head?).map (fun i => i.url)) h
  revert h2
  decide

end MoltbotNews
